import Mathlib

/-!
# Verification of `dco_check` (src/dco_check/dco_check.py)

A shallow embedding of the core logic of the `dco-check` tool: Python strings
are modelled as `List Char`, optional values as `Option`, and code that can
raise a Python exception as `Except PyErr`. Each definition mirrors one
function (or method) of `src/dco_check/dco_check.py`; external effects
(subprocesses, environment variables) are passed in explicitly as data.
-/

namespace DcoCheck

/-- Python strings are modelled as lists of characters. -/
abbrev Str := List Char

/-- Convert a Lean string literal into the `Str` model. -/
def strL (s : String) : Str := s.toList

/-- The characters matched by Python's regex class `\s` on `str` patterns
(CPython's `Py_UNICODE_ISSPACE`): the ASCII whitespace (tab, newline,
vertical tab, form feed, carriage return, space), the file/group/record/unit
separators U+001C-U+001F, next line U+0085, no-break space U+00A0, ogham
space mark U+1680, the U+2000-U+200A spaces, line separator U+2028,
paragraph separator U+2029, narrow no-break space U+202F, medium
mathematical space U+205F, and ideographic space U+3000. -/
def isPySpace (c : Char) : Bool :=
  c == ' ' || c == '\t' || c == '\n' || c == '\r' || c == '\x0b' || c == '\x0c' ||
  c == '\x1c' || c == '\x1d' || c == '\x1e' || c == '\x1f' ||
  c == '\x85' || c == '\xa0' || c == '\u1680' ||
  c == '\u2000' || c == '\u2001' || c == '\u2002' || c == '\u2003' ||
  c == '\u2004' || c == '\u2005' || c == '\u2006' || c == '\u2007' ||
  c == '\u2008' || c == '\u2009' || c == '\u200a' ||
  c == '\u2028' || c == '\u2029' || c == '\u202f' || c == '\u205f' || c == '\u3000'

/-- Drop every trailing occurrence of the character `c`
(the "right side" half of Python's `str.strip(c)`). -/
def dropTrail (c : Char) (s : Str) : Str :=
  (s.reverse.dropWhile (· == c)).reverse

/-- Python's `str.strip(c)` for a single-character argument: remove all
leading and trailing occurrences of `c`. -/
def pyStripChar (c : Char) (s : Str) : Str :=
  dropTrail c (s.dropWhile (· == c))

/-- Helper for `pySplit`: returns the chunk before the first separator
and the list of the remaining chunks. -/
def splitChAux (sep : Char) : Str → Str × List Str
  | [] => ([], [])
  | c :: rest =>
    let r := splitChAux sep rest
    if c == sep then ([], r.1 :: r.2) else (c :: r.1, r.2)

/-- Python's `str.split(sep)` for a one-character separator: split on every
occurrence of `sep`, keeping empty chunks (`"".split(sep) == ['']`).
The repository only ever splits on one-character separators
(the record separator `'\x1e'` and the newline `'\n'`). -/
def pySplit (sep : Char) (s : Str) : List Str :=
  (splitChAux sep s).1 :: (splitChAux sep s).2

/-- `split_commits_data` (dco_check.py:359-378): strip the outer newlines,
split on the record separator, strip each chunk's newlines, and drop the
chunks that are empty (`filter(None, ...)`). -/
def split_commits_data (commits_sep : Char) (commits_data : Str) : List Str :=
  ((pySplit commits_sep (pyStripChar '\n' commits_data)).map (pyStripChar '\n')).filter
    (fun r => !r.isEmpty)

/-- Join records with a one-character separator between consecutive records
(how `git log --pretty=...%x1e` lays out the raw blob, up to outer
newlines that `split_commits_data` strips). -/
def joinSep (sep : Char) : List Str → Str
  | [] => []
  | [r] => r
  | r :: r2 :: rs => r ++ sep :: joinSep sep (r2 :: rs)

/-- The group captured by Python's `re.search('<(.*)>', line)` within a single
line (`.` does not match a newline, so a match never spans lines): the scan
starts at the leftmost `<` that has some `>` after it on the line, and the
greedy `(.*)` extends to the last `>` of the line. -/
def emailGroupLine (line : Str) : Option Str :=
  match line.dropWhile (· != '<') with
  | [] => none
  | _ :: rest =>
    if '>' ∈ rest then some (((rest.reverse.dropWhile (· != '>')).drop 1).reverse)
    else none

/-- The group captured by Python's `re.search('(.*) <', line)` within a single
line: the match starts at the beginning of the line (since `(.*)` may be
empty) and the greedy `(.*)` extends to the last occurrence of the literal
`" <"` on the line; `none` when the line has no `" <"` at all. -/
def nameGroupLine : Str → Option Str
  | [] => none
  | c :: rest =>
    match nameGroupLine rest with
    | some g => some (c :: g)
    | none => if c = ' ' ∧ rest.head? = some '<' then some [] else none

/-- `re.search('<(.*)>', s)` over the whole string: the match lies within a
single line, and lines are scanned in order (earlier positions first). -/
def reSearchAngleGroup (s : Str) : Option Str :=
  (pySplit '\n' s).findSome? emailGroupLine

/-- `re.search('(.*) <', s)` over the whole string: the match lies within a
single line, and lines are scanned in order. -/
def reSearchNameGroup (s : Str) : Option Str :=
  (pySplit '\n' s).findSome? nameGroupLine

/-- `extract_name_and_email` (dco_check.py:381-396): extract a name and an
email from a `'name <email>'` string; `None` when either regex fails. -/
def extract_name_and_email (name_and_email : Str) : Option (Str × Str) :=
  match reSearchAngleGroup name_and_email with
  | none => none
  | some email =>
    match reSearchNameGroup name_and_email with
    | none => none
    | some name => some (name, email)

/-- Match `\S+` followed by a continuation: consume one or more
non-whitespace characters, then succeed if the continuation accepts some
remaining suffix (the backtracking behaviour of Python's greedy `\S+`). -/
def sPlusThen (k : Str → Bool) : Str → Bool
  | [] => false
  | c :: rest => !isPySpace c && (k rest || sPlusThen k rest)

/-- Continuation for the `\.\S+` tail of the email regex: a literal dot then
one or more non-whitespace characters (the rest is unconstrained, since the
pattern is not end-anchored). -/
def emailTailDot : Str → Bool
  | [] => false
  | c :: r4 => (c == '.') && sPlusThen (fun _ => true) r4

/-- Continuation for the `@\S+\.\S+` tail of the email regex: a literal `@`
then `\S+` then the dot tail. -/
def emailTailAt : Str → Bool
  | [] => false
  | c :: r2 => (c == '@') && sPlusThen emailTailDot r2

/-- `is_valid_email` (dco_check.py:254-266): Python's
`re.match(r'^\S+@\S+\.\S+', email)` interpreted as a boolean
(the match object is truthy). -/
def is_valid_email (email : Str) : Bool :=
  sPlusThen emailTailAt email

/-- The sign-off trailer key (dco_check.py:38). -/
def TRAILER_KEY_SIGNED_OFF_BY : Str := strL "Signed-off-by:"

/-- Helper for `pyRemoveAll`, structurally recursive on a fuel argument
(each step consumes at least one character, so `s.length` fuel always
suffices and the fuel-exhausted branch is never reached). -/
def pyRemoveAllFuel (pat : Str) : Nat → Str → Str
  | 0, s => s
  | _, [] => []
  | Nat.succ fuel, c :: rest =>
    if pat ≠ [] ∧ pat.isPrefixOf (c :: rest) then
      pyRemoveAllFuel pat fuel (rest.drop (pat.length - 1))
    else c :: pyRemoveAllFuel pat fuel rest

/-- Python's `str.replace(pat, '')`: delete every non-overlapping occurrence
of `pat`, scanning left to right (the repository only calls `replace` with
the empty replacement string; an empty pattern leaves the string unchanged,
a case no call site exercises). -/
def pyRemoveAll (pat s : Str) : Str :=
  pyRemoveAllFuel pat s.length s

/-- A Python exception raised by the embedded code. -/
inductive PyErr
  /-- `AttributeError`, e.g. calling `.strip` on `None`. -/
  | attributeError
  /-- `TypeError`, e.g. unpacking `None` into a tuple. -/
  | typeError
  /-- `IndexError`, e.g. indexing past the end of a list. -/
  | indexError
deriving DecidableEq

/-- `CommitInfo` (dco_check.py:426-453): container for all necessary commit
information; the author fields hold `None` when extraction failed. -/
structure CommitInfo where
  hash : Str
  title : Str
  body : List Str
  author_name : Option Str
  author_email : Option Str
  is_merge_commit : Bool
deriving DecidableEq

/-- One infraction message appended by `process_commits`; each constructor
stands for exactly one of the f-strings of dco_check.py:918-952. -/
inductive Infraction
  /-- `f'could not extract author data for commit: {commit.hash}'` -/
  | couldNotExtractAuthor (commit_hash : Str)
  /-- `'no sign-off found'` -/
  | noSignOff
  /-- `f'invalid email: {email}'` -/
  | invalidEmail (email : Str)
  /-- `'sign-off not found for commit author: {name} {email}; found: {sign_offs}'` -/
  | authorSignOffNotFound (author_name author_email : Str) (sign_offs : List Str)
deriving DecidableEq

/-- The sign-off candidate strings of one commit (dco_check.py:926-930):
the body lines starting with the trailer key, with every occurrence of the
key deleted and surrounding spaces stripped. -/
def signOffsOf (commit : CommitInfo) : List Str :=
  (commit.body.filter (fun line => TRAILER_KEY_SIGNED_OFF_BY.isPrefixOf line)).map
    (fun line => pyStripChar ' ' (pyRemoveAll TRAILER_KEY_SIGNED_OFF_BY line))

/-- The `for sign_off in sign_offs` loop of dco_check.py:939-945, with the
accumulated infraction list and candidate `(name, email)` list as explicit
state. `name, email = extract_name_and_email(sign_off)` raises a
`TypeError` when the extraction returns `None`. -/
def signOffLoop : List Str → List Infraction → List (Str × Str) →
    Except PyErr (List Infraction × List (Str × Str))
  | [], infs, cands => .ok (infs, cands)
  | so :: rest, infs, cands =>
    match extract_name_and_email so with
    | none => .error .typeError
    | some (n, e) =>
      if is_valid_email e then signOffLoop rest infs (cands ++ [(n, e)])
      else signOffLoop rest (infs ++ [.invalidEmail e]) cands

/-- The body of the `for commit in commits` loop of `process_commits`
(dco_check.py:903-955): the infractions recorded for one commit
(`[]` when the commit is skipped or clean). Before the author-data check,
the code runs `logger.verbose_print('\t' + commit.author_name, ...)`
(dco_check.py:914); its arguments are evaluated eagerly whatever the
verbosity, so a `None` author name raises a `TypeError` there and the
`could not extract author data` infraction is only reachable when the
author name is present and the author email is `None`. -/
def processCommit (commit : CommitInfo) (check_merge_commits : Bool) :
    Except PyErr (List Infraction) :=
  if commit.is_merge_commit && !check_merge_commits then .ok []
  else
    match commit.author_name with
    | none => .error .typeError
    | some an =>
      match commit.author_email with
      | none => .ok [.couldNotExtractAuthor commit.hash]
      | some ae =>
        let sign_offs := signOffsOf commit
        if sign_offs.isEmpty then .ok [.noSignOff]
        else
          match signOffLoop sign_offs [] [] with
          | .error e => .error e
          | .ok (infs, cands) =>
            if (an, ae) ∈ cands then .ok infs
            else .ok (infs ++ [.authorSignOffNotFound an ae sign_offs])

/-- Append infractions for a hash to an association-list model of the
`defaultdict(list)`: the key keeps its first-insertion position and later
messages are appended to its list. -/
def appendAt (m : List (Str × List Infraction)) (h : Str) (infs : List Infraction) :
    List (Str × List Infraction) :=
  match m with
  | [] => [(h, infs)]
  | (k, v) :: rest => if k = h then (k, v ++ infs) :: rest else (k, v) :: appendAt rest h infs

/-- Record the infractions of one commit in the map; a commit with no
infractions never creates a key (the code only touches
`infractions[commit.hash]` to append a message). -/
def addInfractions (m : List (Str × List Infraction)) (h : Str) (infs : List Infraction) :
    List (Str × List Infraction) :=
  if infs.isEmpty then m else appendAt m h infs

/-- The commit loop of `process_commits`, threading the infraction map. -/
def processCommitsAux (check_merge_commits : Bool) :
    List CommitInfo → List (Str × List Infraction) →
    Except PyErr (List (Str × List Infraction))
  | [], acc => .ok acc
  | c :: rest, acc =>
    match processCommit c check_merge_commits with
    | .error e => .error e
    | .ok infs => processCommitsAux check_merge_commits rest (addInfractions acc c.hash infs)

/-- `process_commits` (dco_check.py:891-957): process commit information to
detect DCO infractions, as a map from commit hash to its messages. -/
def process_commits (commits : List CommitInfo) (check_merge_commits : Bool) :
    Except PyErr (List (Str × List Infraction)) :=
  processCommitsAux check_merge_commits commits []

/-- `check_infractions` (dco_check.py:960-978): exit code paired with the
lines printed by the logger (an empty line is the empty string). -/
def check_infractions (infractions : List (Str × List Str)) : Nat × List Str :=
  if infractions.length > 0 then
    (1, strL "Missing sign-off(s):" :: [] ::
      (infractions.map (fun e => ('\t' :: e.1) :: e.2.map (fun m => '\t' :: '\t' :: m))).flatten)
  else (0, [strL "All good!"])

/-- Parsing of one record inside `GitRetriever.get_commits`
(dco_check.py:528-549): `commit_lines[1]` and `commit_lines[2]` raise an
`IndexError` when the chunk has fewer than three lines; a malformed author
line yields `None`/`None` author fields, and records produced this way are
never merge commits (merges were excluded at the `git log` level). -/
def parseCommitChunk (commit_data : Str) : Except PyErr CommitInfo :=
  match pySplit '\n' commit_data with
  | commit_hash :: commit_author_data :: commit_title :: commit_body =>
    match extract_name_and_email commit_author_data with
    | some (n, e) => .ok ⟨commit_hash, commit_title, commit_body, some n, some e, false⟩
    | none => .ok ⟨commit_hash, commit_title, commit_body, none, none, false⟩
  | _ => .error .indexError

/-- `GitRetriever.get_commits` (dco_check.py:516-550), parameterised by the
result of the `get_commits_data` subprocess call: the code passes that
result straight into `split_commits_data` with no `None` check, so a failed
`git log` makes `commits_data.strip('\n')` raise an `AttributeError`. -/
def gitRetrieverGetCommits (commits_data : Option Str) : Except PyErr (List CommitInfo) :=
  match commits_data with
  | none => .error .attributeError
  | some data => (split_commits_data '\x1e' data).mapM parseCommitChunk

/-- The process environment: a partial map from variable names to values
(`get_env_var` without a default returns `None` for an unset variable). -/
abbrev EnvMap := String → Option String

/-- The closed set of retriever strategies (dco_check.py:488-888). -/
inductive RetrieverKind
  | gitlab
  | github
  | azure
  | appveyor
  | circle
  | git
deriving DecidableEq

/-- The fixed priority order used by `main` (dco_check.py:994-1001). -/
def retriever_order : List RetrieverKind :=
  [.gitlab, .github, .azure, .appveyor, .circle, .git]

/-- The `applies()` predicate of each retriever: GitLab checks `GITLAB_CI`
(dco_check.py:560-562), GitHub checks `GITHUB_ACTIONS == 'true'` (786-788),
Azure checks `TF_BUILD` (672-674), AppVeyor checks `APPVEYOR` (726-728),
CircleCI checks `CIRCLECI` (620-622), and the git default always applies
(495-498). -/
def retriever_applies (k : RetrieverKind) (env : EnvMap) : Bool :=
  match k with
  | .gitlab => (env "GITLAB_CI").isSome
  | .github => env "GITHUB_ACTIONS" == some "true"
  | .azure => (env "TF_BUILD").isSome
  | .appveyor => (env "APPVEYOR").isSome
  | .circle => (env "CIRCLECI").isSome
  | .git => true

/-- The retriever selection loop of `main` (dco_check.py:1002-1007): the
first retriever in the priority order whose `applies()` is true. -/
def select_retriever (env : EnvMap) : Option RetrieverKind :=
  retriever_order.find? (fun k => retriever_applies k env)

/-- Results of the git subprocesses a `get_commit_range` may run:
`git rev-parse --verify HEAD`, `git merge-base --fork-point <ref>`, and
whether `git fetch <remote> <branch>` succeeds. -/
structure GitOps where
  headHash : Option String
  forkPoint : String → Option String
  fetchOk : String → String → Bool

/-- `AzurePipelinesRetriever.get_commit_range` (dco_check.py:676-712):
head from `BUILD_SOURCEVERSION`; then, with no pull-request handling
(the `System.PullRequest.*` variables are only a TODO comment), fetch the
configured default branch from the default remote and take the common
ancestor with `remote/default_branch` as the base. -/
def azure_get_commit_range (env : EnvMap) (git : GitOps)
    (default_branch default_remote : String) : Option (String × String) :=
  match env "BUILD_SOURCEVERSION" with
  | none => none
  | some head =>
    if git.fetchOk default_remote default_branch then
      match git.forkPoint (default_remote ++ "/" ++ default_branch) with
      | none => none
      | some base => some (base, head)
    else none

/-- `CircleRetriever.get_commit_range` (dco_check.py:624-658): head from
`CIRCLE_SHA1`; otherwise identical to the Azure variant (no pull-request
handling, base from the fetched default branch). -/
def circle_get_commit_range (env : EnvMap) (git : GitOps)
    (default_branch default_remote : String) : Option (String × String) :=
  match env "CIRCLE_SHA1" with
  | none => none
  | some head =>
    if git.fetchOk default_remote default_branch then
      match git.forkPoint (default_remote ++ "/" ++ default_branch) with
      | none => none
      | some base => some (base, head)
    else none

/-- `AppVeyorRetriever.get_commit_range` (dco_check.py:730-772): head from
`APPVEYOR_PULL_REQUEST_HEAD_COMMIT`, falling back to `git rev-parse HEAD`
with no `None` check (the head component of the result may itself be
`None`); when `APPVEYOR_PULL_REQUEST_HEAD_REPO_BRANCH` equals the default
branch the base is read from `CI_COMMIT_BEFORE_SHA`, otherwise the base is
the common ancestor with the fetched default branch. -/
def appveyor_get_commit_range (env : EnvMap) (git : GitOps)
    (default_branch default_remote : String) : Option (String × Option String) :=
  let head : Option String :=
    match env "APPVEYOR_PULL_REQUEST_HEAD_COMMIT" with
    | some h => some h
    | none => git.headHash
  if env "APPVEYOR_PULL_REQUEST_HEAD_REPO_BRANCH" = some default_branch then
    match env "CI_COMMIT_BEFORE_SHA" with
    | none => none
    | some base => some (base, head)
  else
    if git.fetchOk default_remote default_branch then
      match git.forkPoint (default_remote ++ "/" ++ default_branch) with
      | none => none
      | some base => some (base, head)
    else none

/-- Modelled from the spec: the behaviour section 4.2 claims for the
Azure-like retrievers, which the source does not implement — "read head sha
from a provider-specific environment variable; if running under a
pull-request context, base = common ancestor with the target branch
(fetched from remote); otherwise base = common ancestor with the configured
default branch (fetched from remote)". The pull-request context and target
branch are taken from Azure's `SYSTEM_PULLREQUEST_TARGETBRANCH` variable
(the `System.PullRequest.TargetBranch` named in the source's TODO). -/
def azure_range_per_spec (env : EnvMap) (git : GitOps)
    (default_branch default_remote : String) : Option (String × String) :=
  match env "BUILD_SOURCEVERSION" with
  | none => none
  | some head =>
    let branch :=
      match env "SYSTEM_PULLREQUEST_TARGETBRANCH" with
      | some tb => tb
      | none => default_branch
    if git.fetchOk default_remote branch then
      match git.forkPoint (default_remote ++ "/" ++ branch) with
      | none => none
      | some base => some (base, head)
    else none

/-- The per-sign-off infractions recorded by the loop of
dco_check.py:939-945: one `invalid email` message for each sign-off whose
extracted email fails `is_valid_email`. -/
def invalidEmailInfractions (sign_offs : List Str) : List Infraction :=
  sign_offs.filterMap (fun so =>
    match extract_name_and_email so with
    | some p => if is_valid_email p.2 then none else some (.invalidEmail p.2)
    | none => none)

/-- The candidate `(name, email)` pairs the author-match check of
dco_check.py:948 consults: only sign-offs whose email passes
`is_valid_email` are added. -/
def validSignOffPairs (sign_offs : List Str) : List (Str × Str) :=
  sign_offs.filterMap (fun so =>
    match extract_name_and_email so with
    | some p => if is_valid_email p.2 then some p else none
    | none => none)

/-! ## Helper lemmas -/

theorem head?_dropWhile_beq (c : Char) (l : Str) :
    (l.dropWhile (· == c)).head? ≠ some c := by
  induction l with
  | nil => simp
  | cons a t ih =>
    rw [List.dropWhile_cons]
    cases hb : (a == c) with
    | true => simpa [hb] using ih
    | false =>
      simp only [hb, Bool.false_eq_true, if_false, List.head?_cons, ne_eq, Option.some.injEq]
      intro hh
      rw [hh] at hb
      simp at hb

theorem dropTrail_getLast? (c : Char) (l : Str) :
    (dropTrail c l).getLast? ≠ some c := by
  unfold dropTrail
  rw [List.getLast?_reverse]
  exact head?_dropWhile_beq c l.reverse

theorem dropTrail_prefix (c : Char) (l : Str) : ∃ t, l = dropTrail c l ++ t := by
  refine ⟨(l.reverse.takeWhile (· == c)).reverse, ?_⟩
  unfold dropTrail
  rw [← List.reverse_append, List.takeWhile_append_dropWhile, List.reverse_reverse]

theorem head?_or_of_ne_nil (y : Str) (z : Option Char) (h : y ≠ []) :
    y.head?.or z = y.head? := by
  cases y with
  | nil => exact absurd rfl h
  | cons a t => simp [Option.or]

theorem getLast?_or_of_ne_nil (y : Str) (z : Option Char) (h : y ≠ []) :
    y.getLast?.or z = y.getLast? := by
  cases e : y.getLast? with
  | none => exact absurd (List.getLast?_eq_none_iff.mp e) h
  | some x => simp [Option.or]

theorem pyStripChar_head? (c : Char) (l : Str) :
    (pyStripChar c l).head? ≠ some c := by
  have h2 := head?_dropWhile_beq c l
  obtain ⟨t, ht⟩ := dropTrail_prefix c (l.dropWhile (· == c))
  intro hc
  apply h2
  have : (l.dropWhile (· == c)).head? = (pyStripChar c l).head?.or t.head? := by
    conv_lhs => rw [ht]
    rw [List.head?_append]
    rfl
  rw [this, hc]
  rfl

theorem dropWhile_eq_self_of_head (c : Char) (l : Str) (h : l.head? ≠ some c) :
    l.dropWhile (· == c) = l := by
  cases l with
  | nil => rfl
  | cons a t =>
    rw [List.dropWhile_cons]
    have : (a == c) = false := by
      by_contra hb
      exact h (by simp at hb ⊢; simpa using hb)
    simp [this]

theorem dropTrail_eq_self (c : Char) (l : Str) (h : l.getLast? ≠ some c) :
    dropTrail c l = l := by
  unfold dropTrail
  rw [dropWhile_eq_self_of_head c l.reverse (by rw [List.head?_reverse]; exact h),
    List.reverse_reverse]

theorem pyStripChar_eq_self (c : Char) (l : Str) (h1 : l.head? ≠ some c)
    (h2 : l.getLast? ≠ some c) : pyStripChar c l = l := by
  unfold pyStripChar
  rw [dropWhile_eq_self_of_head c l h1, dropTrail_eq_self c l h2]

theorem splitChAux_append_nosep (sep : Char) (a b : Str) (h : sep ∉ a) :
    splitChAux sep (a ++ b) = (a ++ (splitChAux sep b).1, (splitChAux sep b).2) := by
  induction a with
  | nil => simp
  | cons c t ih =>
    have hc : (c == sep) = false := by
      have : c ≠ sep := fun hcc => h (by rw [hcc]; exact List.mem_cons_self _ _)
      simpa using this
    have ht : sep ∉ t := fun hm => h (List.mem_cons_of_mem c hm)
    simp [List.cons_append, splitChAux, hc, ih ht]

theorem pySplit_append_sep (sep : Char) (a t : Str) (h : sep ∉ a) :
    pySplit sep (a ++ sep :: t) = a :: pySplit sep t := by
  unfold pySplit
  rw [splitChAux_append_nosep sep a (sep :: t) h]
  simp [splitChAux]

theorem pySplit_no_sep (sep : Char) (a : Str) (h : sep ∉ a) :
    pySplit sep a = [a] := by
  have h0 := splitChAux_append_nosep sep a [] h
  simp only [List.append_nil] at h0
  unfold pySplit
  rw [h0]
  simp [splitChAux]

theorem joinSep_ne_nil (sep : Char) (r : Str) (rs : List Str) (h : r ≠ []) :
    joinSep sep (r :: rs) ≠ [] := by
  cases rs with
  | nil => simpa [joinSep] using h
  | cons r2 rs' => exact List.append_ne_nil_of_left_ne_nil h _

theorem head?_joinSep (sep : Char) (r : Str) (rs : List Str) (h : r ≠ []) :
    (joinSep sep (r :: rs)).head? = r.head? := by
  cases rs with
  | nil => rfl
  | cons r2 rs' =>
    show (r ++ sep :: joinSep sep (r2 :: rs')).head? = r.head?
    rw [List.head?_append]
    exact head?_or_of_ne_nil r _ h

theorem getLast?_joinSep (sep : Char) (c : Char) (rs : List Str) (h1 : rs ≠ [])
    (h2 : ∀ r ∈ rs, r ≠ []) (h3 : ∀ r ∈ rs, r.getLast? ≠ some c) :
    (joinSep sep rs).getLast? ≠ some c := by
  induction rs with
  | nil => exact absurd rfl h1
  | cons r rs' ih =>
    cases rs' with
    | nil => exact h3 r (List.mem_cons_self _ _)
    | cons r2 rs'' =>
      show (r ++ sep :: joinSep sep (r2 :: rs'')).getLast? ≠ some c
      have hJ : joinSep sep (r2 :: rs'') ≠ [] :=
        joinSep_ne_nil sep r2 rs'' (h2 r2 (by simp))
      have hrec : (joinSep sep (r2 :: rs'')).getLast? ≠ some c := by
        refine ih (by simp) (fun x hx => h2 x (List.mem_cons_of_mem r hx))
          (fun x hx => h3 x (List.mem_cons_of_mem r hx))
      rw [List.getLast?_append]
      have : (sep :: joinSep sep (r2 :: rs'')).getLast? =
          (joinSep sep (r2 :: rs'')).getLast? := by
        show ([sep] ++ joinSep sep (r2 :: rs'')).getLast? = _
        rw [List.getLast?_append, getLast?_or_of_ne_nil _ _ hJ]
      rw [this, getLast?_or_of_ne_nil _ _ hJ]
      exact hrec

theorem pySplit_joinSep (sep : Char) (rs : List Str) (h1 : rs ≠ [])
    (h2 : ∀ r ∈ rs, sep ∉ r) : pySplit sep (joinSep sep rs) = rs := by
  induction rs with
  | nil => exact absurd rfl h1
  | cons r rs' ih =>
    cases rs' with
    | nil => exact pySplit_no_sep sep r (h2 r (by simp))
    | cons r2 rs'' =>
      show pySplit sep (r ++ sep :: joinSep sep (r2 :: rs'')) = _
      rw [pySplit_append_sep sep r _ (h2 r (by simp)),
        ih (by simp) (fun x hx => h2 x (List.mem_cons_of_mem r hx))]

/-! ## Claim theorems -/

/-- C8: every record returned by `split_commits_data` is non-empty, with no
leading or trailing newline (so no leading/trailing blank line), for every
blob and separator; and splitting the blob formed by rejoining any
well-formed record sequence with the separator recovers exactly those
records (the split/rejoin round-trip preserves the commit boundaries). -/
theorem split_commits_data_spec :
    (∀ (sep : Char) (data : Str), ∀ r ∈ split_commits_data sep data,
      r ≠ [] ∧ r.head? ≠ some '\n' ∧ r.getLast? ≠ some '\n') ∧
    (∀ (sep : Char) (records : List Str), records ≠ [] →
      (∀ r ∈ records, r ≠ [] ∧ r.head? ≠ some '\n' ∧ r.getLast? ≠ some '\n' ∧ sep ∉ r) →
      split_commits_data sep (joinSep sep records) = records) := by
  constructor
  · intro sep data r hr
    unfold split_commits_data at hr
    rw [List.mem_filter] at hr
    obtain ⟨hm, hne⟩ := hr
    have rne : r ≠ [] := by
      intro h0
      rw [h0] at hne
      simp at hne
    rw [List.mem_map] at hm
    obtain ⟨x, -, hx⟩ := hm
    subst hx
    refine ⟨rne, pyStripChar_head? '\n' x, ?_⟩
    unfold pyStripChar
    exact dropTrail_getLast? '\n' _
  · intro sep records hne hprops
    obtain ⟨r, rs, rfl⟩ : ∃ r rs, records = r :: rs := by
      cases records with
      | nil => exact absurd rfl hne
      | cons r rs => exact ⟨r, rs, rfl⟩
    have hj1 : (joinSep sep (r :: rs)).head? ≠ some '\n' := by
      rw [head?_joinSep sep r rs (hprops r (by simp)).1]
      exact (hprops r (by simp)).2.1
    have hj2 : (joinSep sep (r :: rs)).getLast? ≠ some '\n' :=
      getLast?_joinSep sep '\n' (r :: rs) (by simp)
        (fun x hx => (hprops x hx).1) (fun x hx => (hprops x hx).2.2.1)
    unfold split_commits_data
    rw [pyStripChar_eq_self '\n' _ hj1 hj2,
      pySplit_joinSep sep (r :: rs) (by simp) (fun x hx => (hprops x hx).2.2.2)]
    have hmap : (r :: rs).map (pyStripChar '\n') = (r :: rs).map id := by
      refine List.map_congr_left (fun x hx => ?_)
      exact pyStripChar_eq_self '\n' x (hprops x hx).2.1 (hprops x hx).2.2.1
    rw [hmap, List.map_id]
    refine List.filter_eq_self.mpr (fun x hx => ?_)
    have := (hprops x hx).1
    simp only [Bool.not_eq_true']
    rw [List.isEmpty_eq_false]
    exact this

/-- C8 witness: both conjuncts applied at concrete inputs. -/
theorem split_commits_data_spec_witness :
    (strL "a" ≠ [] ∧ (strL "a").head? ≠ some '\n' ∧ (strL "a").getLast? ≠ some '\n') ∧
    split_commits_data '\x1e' (joinSep '\x1e' [strL "ab", strL "cd"]) =
      [strL "ab", strL "cd"] :=
  ⟨split_commits_data_spec.1 '\x1e' (strL "a\x1eb") (strL "a") (by decide),
   split_commits_data_spec.2 '\x1e' [strL "ab", strL "cd"] (by decide) (by decide)⟩

/-- C1 (code bug): when `get_commits_data` returns `None` (failed `git log`
subprocess), `GitRetriever.get_commits` does not return `None`: it passes
the `None` straight into `split_commits_data`, whose `commits_data.strip`
call raises an `AttributeError`, contradicting the documented failure
semantics (absence propagation, with `main`'s `if commits is None: return 1`
check left unreachable). -/
theorem git_get_commits_failed_subprocess_raises :
    gitRetrieverGetCommits none = .error .attributeError := rfl

/-- A commit whose sign-off line has no `<...>` segment
(`'Signed-off-by: Foo'`), with ordinary author data. -/
def signOffNoAngleCommit : CommitInfo :=
  ⟨strL "h", strL "title", [strL "Signed-off-by: Foo"],
   some (strL "Foo"), some (strL "foo@bar.com"), false⟩

/-- C3: on a commit whose body contains `'Signed-off-by: Foo'` (a trailer
line with no `<...>` segment), `process_commits` raises a `TypeError`
(unpacking the `None` returned by `extract_name_and_email`) instead of
recording an infraction or returning a result. -/
theorem sign_off_without_angle_brackets_raises :
    process_commits [signOffNoAngleCommit] false = .error .typeError := rfl

/-- The commit of the repository's own `test_processing.py` "Invalid
sign-off email" scenario: its single sign-off carries the invalid email
`winky.com`. -/
def invalidEmailSignOffCommit : CommitInfo :=
  ⟨strL "adc", strL "This is a commit title",
   [strL "Signed-off-by: Tinky Winky <winky.com>"],
   some (strL "Tinky Winky"), some (strL "tinky@winky.com"), false⟩

/-- C2 counterexample: a non-merge commit with extractable author data whose
single sign-off has an invalid email receives TWO infractions (the invalid
email, and the author-match miss that follows because the malformed
sign-off is excluded from the candidate set), not exactly one. -/
theorem invalid_email_two_infractions_counterexample :
    process_commits [invalidEmailSignOffCommit] false =
      .ok [(strL "adc",
        [.invalidEmail (strL "winky.com"),
         .authorSignOffNotFound (strL "Tinky Winky") (strL "tinky@winky.com")
           [strL "Tinky Winky <winky.com>"]])] ∧
    [Infraction.invalidEmail (strL "winky.com"),
     Infraction.authorSignOffNotFound (strL "Tinky Winky") (strL "tinky@winky.com")
       [strL "Tinky Winky <winky.com>"]].length ≠ 1 :=
  ⟨rfl, by decide⟩

theorem signOffLoop_all_parse (sos : List Str) (infs : List Infraction)
    (cands : List (Str × Str))
    (h : ∀ so ∈ sos, (extract_name_and_email so).isSome = true) :
    signOffLoop sos infs cands =
      .ok (infs ++ invalidEmailInfractions sos, cands ++ validSignOffPairs sos) := by
  induction sos generalizing infs cands with
  | nil => simp [signOffLoop, invalidEmailInfractions, validSignOffPairs]
  | cons so rest ih =>
    obtain ⟨p, hp⟩ := Option.isSome_iff_exists.mp (h so (by simp))
    have hrest : ∀ x ∈ rest, (extract_name_and_email x).isSome = true :=
      fun x hx => h x (List.mem_cons_of_mem so hx)
    obtain ⟨n, e⟩ := p
    simp only [signOffLoop, hp]
    by_cases hv : is_valid_email e = true
    · rw [if_pos hv, ih _ _ hrest]
      simp [invalidEmailInfractions, validSignOffPairs, List.filterMap_cons, hp, hv]
    · rw [if_neg hv, ih _ _ hrest]
      simp only [Bool.not_eq_true] at hv
      simp [invalidEmailInfractions, validSignOffPairs, List.filterMap_cons, hp, hv]

/-- C2 (amended): for a non-merge commit with extractable author data whose
sign-off lines all parse and at least one of which has an email failing the
validity regex, `process_commits` records one infraction per invalid-email
sign-off plus one more when no valid-email sign-off matches the author
(so possibly two or more in total, not exactly one); the malformed
sign-offs are excluded from the candidate set used for the author-match
check, which consults only pairs whose email passes the validity regex. -/
theorem invalid_email_infractions_amended (c : CommitInfo) (an ae : Str)
    (h1 : c.is_merge_commit = false)
    (h2 : c.author_name = some an) (h3 : c.author_email = some ae)
    (h4 : signOffsOf c ≠ [])
    (h5 : ∀ so ∈ signOffsOf c, (extract_name_and_email so).isSome = true)
    (h6 : ∃ so ∈ signOffsOf c,
      (extract_name_and_email so).any (fun p => !is_valid_email p.2) = true) :
    process_commits [c] false =
      .ok [(c.hash,
        invalidEmailInfractions (signOffsOf c) ++
          (if (an, ae) ∈ validSignOffPairs (signOffsOf c) then []
           else [.authorSignOffNotFound an ae (signOffsOf c)]))] ∧
    invalidEmailInfractions (signOffsOf c) ≠ [] ∧
    (∀ p ∈ validSignOffPairs (signOffsOf c), is_valid_email p.2 = true) := by
  have hinv : invalidEmailInfractions (signOffsOf c) ≠ [] := by
    obtain ⟨so, hso, hany⟩ := h6
    cases he : extract_name_and_email so with
    | none => rw [he] at hany; simp [Option.any] at hany
    | some p =>
      rw [he] at hany
      simp only [Option.any, Bool.not_eq_true'] at hany
      have : Infraction.invalidEmail p.2 ∈ invalidEmailInfractions (signOffsOf c) := by
        rw [invalidEmailInfractions, List.mem_filterMap]
        exact ⟨so, hso, by rw [he]; simp [hany]⟩
      exact List.ne_nil_of_mem this
  refine ⟨?_, hinv, ?_⟩
  · have hempty : (signOffsOf c).isEmpty = false := by
      rw [List.isEmpty_eq_false]
      exact h4
    have hpc : processCommit c false =
        .ok (invalidEmailInfractions (signOffsOf c) ++
          (if (an, ae) ∈ validSignOffPairs (signOffsOf c) then []
           else [.authorSignOffNotFound an ae (signOffsOf c)])) := by
      simp only [processCommit, h1, h2, h3, Bool.not_false, Bool.false_and,
        Bool.false_eq_true, if_false, hempty,
        signOffLoop_all_parse (signOffsOf c) [] [] h5, List.nil_append]
      by_cases hm : (an, ae) ∈ validSignOffPairs (signOffsOf c)
      · simp [hm]
      · simp [hm]
    have hne2 : (invalidEmailInfractions (signOffsOf c) ++
        (if (an, ae) ∈ validSignOffPairs (signOffsOf c) then []
         else [Infraction.authorSignOffNotFound an ae (signOffsOf c)])).isEmpty = false := by
      rw [List.isEmpty_eq_false]
      exact List.append_ne_nil_of_left_ne_nil hinv _
    rw [process_commits]
    simp only [processCommitsAux, hpc, addInfractions, hne2, Bool.false_eq_true,
      if_false, appendAt]
  · intro p hp
    rw [validSignOffPairs, List.mem_filterMap] at hp
    obtain ⟨so, -, hso⟩ := hp
    revert hso
    cases extract_name_and_email so with
    | none => intro hso; simp at hso
    | some q =>
      intro hso
      by_cases hv : is_valid_email q.2 = true
      · simp only [hv, if_true, Option.some.injEq] at hso
        rw [← hso]
        exact hv
      · simp [hv] at hso

/-- A commit with one invalid-email sign-off and one valid sign-off matching
the author, used to instantiate the amended C2 theorem. -/
def amendedWitnessCommit : CommitInfo :=
  ⟨strL "w1", strL "t",
   [strL "Signed-off-by: Bad Guy <bad>", strL "Signed-off-by: N <n@x.y>"],
   some (strL "N"), some (strL "n@x.y"), false⟩

/-- C2 witness: the amended theorem applied to a concrete commit. -/
theorem invalid_email_infractions_amended_witness :
    process_commits [amendedWitnessCommit] false =
      .ok [(amendedWitnessCommit.hash,
        invalidEmailInfractions (signOffsOf amendedWitnessCommit) ++
          (if (strL "N", strL "n@x.y") ∈ validSignOffPairs (signOffsOf amendedWitnessCommit)
           then []
           else [.authorSignOffNotFound (strL "N") (strL "n@x.y")
             (signOffsOf amendedWitnessCommit)]))] ∧
    invalidEmailInfractions (signOffsOf amendedWitnessCommit) ≠ [] ∧
    (∀ p ∈ validSignOffPairs (signOffsOf amendedWitnessCommit),
      is_valid_email p.2 = true) :=
  invalid_email_infractions_amended amendedWitnessCommit (strL "N") (strL "n@x.y")
    rfl rfl rfl (by decide) (by decide) (by decide)

/-- A merge commit with no sign-off line and ordinary author data. -/
def mergeWitnessCommit : CommitInfo :=
  ⟨strL "m1", strL "merge title", [strL "some body line"],
   some (strL "N"), some (strL "n@x.y"), true⟩

/-- A merge commit with no sign-off line whose author fields are `None`
(as `git log` parsing produces for a malformed author line). -/
def authorNoneMergeCommit : CommitInfo :=
  ⟨strL "m0", strL "merge title", [strL "some body line"], none, none, true⟩

/-- C5 (code bug): a merge commit with no sign-off is skipped with zero
infractions when merge commits are not checked, and receives exactly one
infraction when they are checked and its author name is present; but for a
merge commit whose author name is `None`, the checked run raises a
`TypeError` from the eagerly evaluated `'\t' + commit.author_name` logging
argument (dco_check.py:914) instead of recording the claimed single
`could not extract author data` infraction — the infraction path the
repository's own `test_processing.py` expects for author-`None` commits. -/
theorem merge_commit_infractions_eval :
    process_commits [authorNoneMergeCommit] false = .ok [] ∧
    process_commits [authorNoneMergeCommit] true = .error .typeError ∧
    process_commits [mergeWitnessCommit] false = .ok [] ∧
    process_commits [mergeWitnessCommit] true =
      .ok [(strL "m1", [.noSignOff])] :=
  ⟨rfl, rfl, rfl, rfl⟩

theorem flatten_decomp {α : Type} (L : List (List α)) (l : List α) (h : l ∈ L) :
    ∃ pre post, L.flatten = pre ++ l ++ post := by
  induction L with
  | nil => simp at h
  | cons x L' ih =>
    rcases List.mem_cons.mp h with rfl | hm
    · exact ⟨[], L'.flatten, by simp⟩
    · obtain ⟨pre, post, hd⟩ := ih hm
      exact ⟨x ++ pre, post, by simp [hd]⟩

/-- C7: `check_infractions` returns exit code 0 exactly when the map is
empty and 1 otherwise (even when every key maps to an empty violation
list), and its log output contains, for each entry, the offending hash line
immediately followed by its indented violation strings. -/
theorem check_infractions_spec (infractions : List (Str × List Str)) :
    (check_infractions infractions).1 = (if infractions = [] then 0 else 1) ∧
    (∀ sha msgs, (sha, msgs) ∈ infractions →
      ∃ pre post, (check_infractions infractions).2 =
        pre ++ (('\t' :: sha) :: msgs.map (fun m => '\t' :: '\t' :: m)) ++ post) := by
  cases hi : infractions with
  | nil => simp [check_infractions]
  | cons e rest =>
    constructor
    · simp [check_infractions]
    · intro sha msgs hm
      have hblock : (('\t' :: sha) :: msgs.map (fun m => '\t' :: '\t' :: m)) ∈
          ((e :: rest).map (fun e => ('\t' :: e.1) :: e.2.map (fun m => '\t' :: '\t' :: m))) := by
        rw [List.mem_map]
        exact ⟨(sha, msgs), hm, rfl⟩
      obtain ⟨pre, post, hd⟩ := flatten_decomp _ _ hblock
      refine ⟨strL "Missing sign-off(s):" :: [] :: pre, post, ?_⟩
      simp only [check_infractions, List.length_cons, Nat.succ_eq_add_one, gt_iff_lt,
        Nat.zero_lt_succ, if_pos, hd]
      simp

/-- C7 witness: the specification applied to a concrete one-entry map whose
only key maps to the empty violation list. -/
theorem check_infractions_spec_witness :
    (check_infractions [(strL "abcd", [])]).1 =
      (if ([(strL "abcd", ([] : List Str))] : List (Str × List Str)) = [] then 0 else 1) ∧
    ∃ pre post, (check_infractions [(strL "abcd", [])]).2 =
      pre ++ (('\t' :: strL "abcd") :: ([] : List Str).map (fun m => '\t' :: '\t' :: m)) ++ post :=
  ⟨(check_infractions_spec [(strL "abcd", [])]).1,
   (check_infractions_spec [(strL "abcd", [])]).2 (strL "abcd") [] (by simp)⟩

theorem find?_first_split {α : Type} (p : α → Bool) (l : List α) (a : α)
    (h : l.find? p = some a) :
    ∃ l1 l2, l = l1 ++ a :: l2 ∧ (∀ x ∈ l1, p x = false) ∧ p a = true := by
  induction l with
  | nil => simp [List.find?] at h
  | cons x t ih =>
    cases px : p x with
    | true =>
      rw [List.find?_cons_of_pos t px] at h
      cases h
      exact ⟨[], t, rfl, by simp, px⟩
    | false =>
      rw [List.find?_cons_of_neg t (by simp [px])] at h
      obtain ⟨l1, l2, he, hall, ha⟩ := ih h
      exact ⟨x :: l1, l2, by simp [he], by
        intro y hy
        rcases List.mem_cons.mp hy with rfl | hm
        · exact px
        · exact hall y hm, ha⟩

/-- C4: for every environment, the git default retriever applies, and the
selected retriever is the first in the fixed priority order
GitLab → GitHub → Azure Pipelines → AppVeyor → CircleCI → git-default whose
`applies()` is true; in particular the selection never yields `None`. -/
theorem retriever_selection_first_applies (env : EnvMap) :
    retriever_applies .git env = true ∧
    ∃ k l1 l2, select_retriever env = some k ∧ retriever_applies k env = true ∧
      retriever_order = l1 ++ k :: l2 ∧ ∀ j ∈ l1, retriever_applies j env = false := by
  refine ⟨rfl, ?_⟩
  cases hf : select_retriever env with
  | none =>
    exfalso
    have hf' : retriever_order.find? (fun k => retriever_applies k env) = none := hf
    rw [List.find?_eq_none] at hf'
    exact hf' .git (by simp [retriever_order]) rfl
  | some k =>
    have hf' : retriever_order.find? (fun j => retriever_applies j env) = some k := hf
    obtain ⟨l1, l2, he, hall, hk⟩ := find?_first_split _ _ k hf'
    exact ⟨k, l1, l2, rfl, hk, he, hall⟩

/-- C4 witness: the selection theorem applied to the empty environment
(where only the git default applies). -/
theorem retriever_selection_first_applies_witness :
    retriever_applies .git (fun _ => none) = true ∧
    ∃ k l1 l2, select_retriever (fun _ => none) = some k ∧
      retriever_applies k (fun _ => none) = true ∧
      retriever_order = l1 ++ k :: l2 ∧ ∀ j ∈ l1, retriever_applies j (fun _ => none) = false :=
  retriever_selection_first_applies (fun _ => none)

/-- An Azure Pipelines environment under a pull-request context targeting
branch `develop`, with all git operations succeeding. -/
def azureCounterexampleEnv : EnvMap := fun k =>
  if k = "TF_BUILD" then some "True"
  else if k = "BUILD_SOURCEVERSION" then some "headsha"
  else if k = "SYSTEM_PULLREQUEST_TARGETBRANCH" then some "develop"
  else none

/-- Git results distinguishing the pull-request target branch's common
ancestor from the default branch's. -/
def azureCounterexampleGit : GitOps :=
  ⟨some "localhead",
   fun r =>
     if r = "origin/develop" then some "ancestorPR"
     else if r = "origin/master" then some "ancestorDefault"
     else none,
   fun _ _ => true⟩

/-- C6 counterexample: under a pull-request context, the Azure Pipelines
retriever does NOT use the common ancestor with the target branch as the
claim states (the spec-modelled behaviour would); it uses the configured
default branch's common ancestor. -/
theorem azure_pr_context_counterexample :
    azure_get_commit_range azureCounterexampleEnv azureCounterexampleGit "master" "origin" =
      some ("ancestorDefault", "headsha") ∧
    azure_range_per_spec azureCounterexampleEnv azureCounterexampleGit "master" "origin" =
      some ("ancestorPR", "headsha") ∧
    ("ancestorDefault" : String) ≠ "ancestorPR" :=
  ⟨rfl, rfl, by decide⟩

/-- C6 (amended): Azure Pipelines and CircleCI read the head sha from
`BUILD_SOURCEVERSION` / `CIRCLE_SHA1` and always take the base to be the
common ancestor with the configured default branch fetched from the
remote, regardless of any pull-request context; AppVeyor reads the head
from `APPVEYOR_PULL_REQUEST_HEAD_COMMIT` falling back to `git rev-parse
HEAD`, and when the PR head-repo branch equals the default branch it reads
the base from `CI_COMMIT_BEFORE_SHA`, otherwise it also uses the fetched
default branch's common ancestor. -/
theorem provider_range_uses_default_branch :
    (∀ (env : EnvMap) (git : GitOps) (db remote b h : String),
      azure_get_commit_range env git db remote = some (b, h) →
      env "BUILD_SOURCEVERSION" = some h ∧ git.fetchOk remote db = true ∧
        git.forkPoint (remote ++ "/" ++ db) = some b) ∧
    (∀ (env : EnvMap) (git : GitOps) (db remote b h : String),
      circle_get_commit_range env git db remote = some (b, h) →
      env "CIRCLE_SHA1" = some h ∧ git.fetchOk remote db = true ∧
        git.forkPoint (remote ++ "/" ++ db) = some b) ∧
    (∀ (env : EnvMap) (git : GitOps) (db remote b : String) (h : Option String),
      appveyor_get_commit_range env git db remote = some (b, h) →
      (h = env "APPVEYOR_PULL_REQUEST_HEAD_COMMIT" ∨
        (env "APPVEYOR_PULL_REQUEST_HEAD_COMMIT" = none ∧ h = git.headHash)) ∧
      (if env "APPVEYOR_PULL_REQUEST_HEAD_REPO_BRANCH" = some db
       then env "CI_COMMIT_BEFORE_SHA" = some b
       else git.fetchOk remote db = true ∧
         git.forkPoint (remote ++ "/" ++ db) = some b)) := by
  refine ⟨?_, ?_, ?_⟩
  · intro env git db remote b h hr
    rw [azure_get_commit_range] at hr
    split at hr
    · exact absurd hr (by simp)
    next head hv =>
      split at hr
      next hf =>
        split at hr
        · exact absurd hr (by simp)
        next base hfp =>
          simp only [Option.some.injEq, Prod.mk.injEq] at hr
          obtain ⟨rfl, rfl⟩ := hr
          exact ⟨hv, hf, hfp⟩
      next hf => exact absurd hr (by simp)
  · intro env git db remote b h hr
    rw [circle_get_commit_range] at hr
    split at hr
    · exact absurd hr (by simp)
    next head hv =>
      split at hr
      next hf =>
        split at hr
        · exact absurd hr (by simp)
        next base hfp =>
          simp only [Option.some.injEq, Prod.mk.injEq] at hr
          obtain ⟨rfl, rfl⟩ := hr
          exact ⟨hv, hf, hfp⟩
      next hf => exact absurd hr (by simp)
  · intro env git db remote b h hr
    rw [appveyor_get_commit_range] at hr
    have hhead : (match env "APPVEYOR_PULL_REQUEST_HEAD_COMMIT" with
        | some h' => some h'
        | none => git.headHash) = env "APPVEYOR_PULL_REQUEST_HEAD_COMMIT" ∨
        (env "APPVEYOR_PULL_REQUEST_HEAD_COMMIT" = none ∧
          (match env "APPVEYOR_PULL_REQUEST_HEAD_COMMIT" with
            | some h' => some h'
            | none => git.headHash) = git.headHash) := by
      cases env "APPVEYOR_PULL_REQUEST_HEAD_COMMIT" with
      | none => exact Or.inr ⟨rfl, rfl⟩
      | some h' => exact Or.inl rfl
    split at hr
    next hbr =>
      split at hr
      · exact absurd hr (by simp)
      next base hbs =>
        simp only [Option.some.injEq, Prod.mk.injEq] at hr
        obtain ⟨rfl, rfl⟩ := hr
        rw [if_pos hbr]
        exact ⟨hhead, hbs⟩
    next hbr =>
      split at hr
      next hf =>
        split at hr
        · exact absurd hr (by simp)
        next base hfp =>
          simp only [Option.some.injEq, Prod.mk.injEq] at hr
          obtain ⟨rfl, rfl⟩ := hr
          rw [if_neg hbr]
          exact ⟨hhead, hf, hfp⟩
      next hf => exact absurd hr (by simp)

/-- C6 witness: the amended theorem's Azure conjunct applied to the
concrete counterexample environment. -/
theorem provider_range_uses_default_branch_witness :
    azureCounterexampleEnv "BUILD_SOURCEVERSION" = some "headsha" ∧
    azureCounterexampleGit.fetchOk "origin" "master" = true ∧
    azureCounterexampleGit.forkPoint ("origin" ++ "/" ++ "master") = some "ancestorDefault" :=
  provider_range_uses_default_branch.1 azureCounterexampleEnv azureCounterexampleGit
    "master" "origin" "ancestorDefault" "headsha" rfl

theorem sPlusThen_iff (k : Str → Bool) (s : Str) :
    sPlusThen k s = true ↔
      ∃ a r, s = a ++ r ∧ a ≠ [] ∧ (∀ x ∈ a, isPySpace x = false) ∧ k r = true := by
  induction s with
  | nil =>
    constructor
    · intro h
      simp [sPlusThen] at h
    · rintro ⟨a, r, heq, hne, -, -⟩
      cases a with
      | nil => exact absurd rfl hne
      | cons x t => simp at heq
  | cons ch rest ih =>
    constructor
    · intro h
      rw [sPlusThen, Bool.and_eq_true, Bool.or_eq_true, Bool.not_eq_true'] at h
      obtain ⟨hns, hor⟩ := h
      rcases hor with hk | hrec
      · exact ⟨[ch], rest, rfl, by simp, by simpa using hns, hk⟩
      · obtain ⟨a, r, heq, hne, hnsa, hk⟩ := ih.mp hrec
        refine ⟨ch :: a, r, by rw [heq]; rfl, by simp, ?_, hk⟩
        intro x hx
        rcases List.mem_cons.mp hx with rfl | hm
        · exact hns
        · exact hnsa x hm
    · rintro ⟨a, r, heq, hne, hnsa, hk⟩
      cases a with
      | nil => exact absurd rfl hne
      | cons y t =>
        rw [List.cons_append] at heq
        injection heq with h1 h2
        subst h1
        rw [sPlusThen, Bool.and_eq_true, Bool.or_eq_true, Bool.not_eq_true']
        refine ⟨hnsa ch (by simp), ?_⟩
        cases t with
        | nil =>
          left
          simp only [List.nil_append] at h2
          rw [h2]
          exact hk
        | cons z t' =>
          right
          refine ih.mpr ⟨z :: t', r, h2, by simp, ?_, hk⟩
          intro x hx
          exact hnsa x (List.mem_cons_of_mem ch hx)

theorem is_valid_email_iff (s : Str) :
    is_valid_email s = true ↔
      ∃ a b c d, s = a ++ '@' :: (b ++ '.' :: (c ++ d)) ∧
        a ≠ [] ∧ b ≠ [] ∧ c ≠ [] ∧
        (∀ x ∈ a, isPySpace x = false) ∧ (∀ x ∈ b, isPySpace x = false) ∧
        (∀ x ∈ c, isPySpace x = false) := by
  rw [is_valid_email, sPlusThen_iff]
  constructor
  · rintro ⟨a, r, heq, hne, hnsa, hk⟩
    cases r with
    | nil => simp [emailTailAt] at hk
    | cons x r2 =>
      rw [emailTailAt, Bool.and_eq_true, beq_iff_eq] at hk
      obtain ⟨rfl, hk2⟩ := hk
      rw [sPlusThen_iff] at hk2
      obtain ⟨b, r3, heq3, hneb, hnsb, hk3⟩ := hk2
      cases r3 with
      | nil => simp [emailTailDot] at hk3
      | cons y r4 =>
        rw [emailTailDot, Bool.and_eq_true, beq_iff_eq] at hk3
        obtain ⟨rfl, hk4⟩ := hk3
        rw [sPlusThen_iff] at hk4
        obtain ⟨c, d, heq4, hnec, hnsc, -⟩ := hk4
        refine ⟨a, b, c, d, ?_, hne, hneb, hnec, hnsa, hnsb, hnsc⟩
        rw [heq, heq3, heq4]
  · rintro ⟨a, b, c, d, heq, hne, hneb, hnec, hnsa, hnsb, hnsc⟩
    refine ⟨a, '@' :: (b ++ '.' :: (c ++ d)), heq, hne, hnsa, ?_⟩
    rw [emailTailAt, Bool.and_eq_true]
    refine ⟨by simp, ?_⟩
    rw [sPlusThen_iff]
    refine ⟨b, '.' :: (c ++ d), rfl, hneb, hnsb, ?_⟩
    rw [emailTailDot, Bool.and_eq_true]
    refine ⟨by simp, ?_⟩
    rw [sPlusThen_iff]
    exact ⟨c, d, rfl, hnec, hnsc, rfl⟩

theorem first_occ_unique (x : Char) (p u : Str) : ∀ (q v : Str), x ∉ p → x ∉ q →
    p ++ x :: u = q ++ x :: v → p = q ∧ u = v := by
  induction p with
  | nil =>
    intro q v _ hq h
    cases q with
    | nil => simpa using h
    | cons z q' =>
      simp only [List.nil_append, List.cons_append] at h
      injection h with h1 h2
      exfalso
      apply hq
      rw [h1]
      exact List.mem_cons_self _ _
  | cons w p' ih =>
    intro q v hp hq h
    cases q with
    | nil =>
      simp only [List.cons_append, List.nil_append] at h
      injection h with h1 h2
      exfalso
      apply hp
      rw [← h1]
      exact List.mem_cons_self _ _
    | cons z q' =>
      simp only [List.cons_append] at h
      injection h with h1 h2
      obtain ⟨hpq, huv⟩ := ih q' v (fun hm => hp (List.mem_cons_of_mem w hm))
        (fun hm => hq (List.mem_cons_of_mem z hm)) h2
      exact ⟨by rw [h1, hpq], huv⟩

/-- C10: `is_valid_email` accepts every string shaped
`nonspace+ '@' nonspace+ '.' nonspace+` and rejects any string missing the
`@`, missing a literal `.`, the empty string, any (single-`@`) string with
an empty domain segment (`a@.c`), and any such string with an empty suffix
after the final dot (`a@b.`). -/
theorem is_valid_email_spec :
    (∀ a b c : Str, a ≠ [] → b ≠ [] → c ≠ [] →
      (∀ x ∈ a, isPySpace x = false) → (∀ x ∈ b, isPySpace x = false) →
      (∀ x ∈ c, isPySpace x = false) →
      is_valid_email (a ++ '@' :: (b ++ '.' :: c)) = true) ∧
    (∀ s : Str, '@' ∉ s → is_valid_email s = false) ∧
    (∀ s : Str, '.' ∉ s → is_valid_email s = false) ∧
    is_valid_email [] = false ∧
    (∀ a c : Str, '@' ∉ a → '@' ∉ c → '.' ∉ c →
      is_valid_email (a ++ '@' :: '.' :: c) = false) ∧
    (∀ a b : Str, '@' ∉ a → '@' ∉ b → '.' ∉ a → '.' ∉ b →
      is_valid_email (a ++ '@' :: (b ++ ['.'])) = false) := by
  refine ⟨?_, ?_, ?_, rfl, ?_, ?_⟩
  · intro a b c ha hb hc hnsa hnsb hnsc
    exact (is_valid_email_iff _).mpr ⟨a, b, c, [], by simp, ha, hb, hc, hnsa, hnsb, hnsc⟩
  · intro s hs
    by_contra hv
    rw [Bool.not_eq_false, is_valid_email_iff] at hv
    obtain ⟨a, b, c, d, heq, -, -, -, -, -, -⟩ := hv
    apply hs
    rw [heq]
    exact List.mem_append_right _ (List.mem_cons_self _ _)
  · intro s hs
    by_contra hv
    rw [Bool.not_eq_false, is_valid_email_iff] at hv
    obtain ⟨a, b, c, d, heq, -, -, -, -, -, -⟩ := hv
    apply hs
    rw [heq]
    refine List.mem_append_right _ (List.mem_cons_of_mem _ ?_)
    exact List.mem_append_right _ (List.mem_cons_self _ _)
  · intro a c ha hac hdc
    by_contra hv
    rw [Bool.not_eq_false, is_valid_email_iff] at hv
    obtain ⟨a', b', c', d', heq, -, hneb', -, -, -, -⟩ := hv
    have hnotc : '@' ∉ ('.' :: c) := by
      intro hm
      rcases List.mem_cons.mp hm with h1 | h1
      · exact absurd h1 (by decide)
      · exact hac h1
    have hcard : List.count '@' (a ++ '@' :: '.' :: c) = 1 := by
      rw [List.count_append, List.count_eq_zero.mpr ha, List.count_cons_self,
        List.count_eq_zero.mpr hnotc]
    have h0 : List.count '@' a' = 0 := by
      rw [heq, List.count_append, List.count_cons_self] at hcard
      omega
    obtain ⟨-, huv⟩ := first_occ_unique '@' a ('.' :: c) a' (b' ++ '.' :: (c' ++ d'))
      ha (List.count_eq_zero.mp h0) heq
    cases b' with
    | nil => exact hneb' rfl
    | cons z b'' =>
      rw [List.cons_append] at huv
      injection huv with h1 h2
      apply hdc
      rw [h2]
      exact List.mem_append_right _ (List.mem_cons_self _ _)
  · intro a b ha hb hda hdb
    by_contra hv
    rw [Bool.not_eq_false, is_valid_email_iff] at hv
    obtain ⟨a', b', c', d', heq, -, -, hnec', -, -, -⟩ := hv
    have heq2 : (a ++ '@' :: b) ++ '.' :: [] = (a' ++ '@' :: b') ++ '.' :: (c' ++ d') := by
      simpa [List.append_assoc] using heq
    have hd1 : '.' ∉ a ++ '@' :: b := by
      intro hm
      rcases List.mem_append.mp hm with h1 | h1
      · exact hda h1
      · rcases List.mem_cons.mp h1 with h2 | h2
        · exact absurd h2 (by decide)
        · exact hdb h2
    have hcard : List.count '.' ((a ++ '@' :: b) ++ '.' :: ([] : Str)) = 1 := by
      rw [List.count_append, List.count_eq_zero.mpr hd1, List.count_cons_self]
      rfl
    have h0 : List.count '.' (a' ++ '@' :: b') = 0 := by
      rw [heq2, List.count_append, List.count_cons_self] at hcard
      omega
    obtain ⟨-, huv⟩ := first_occ_unique '.' (a ++ '@' :: b) [] (a' ++ '@' :: b')
      (c' ++ d') hd1 (List.count_eq_zero.mp h0) heq2
    cases hc' : c' with
    | nil => exact hnec' hc'
    | cons z t =>
      rw [hc'] at huv
      simp at huv

theorem dropWhile_not_mem (c : Char) (a b : Str) (h : c ∉ a) :
    (a ++ c :: b).dropWhile (· != c) = c :: b := by
  induction a with
  | nil =>
    simp only [List.nil_append]
    rw [List.dropWhile_cons]
    simp
  | cons x t ih =>
    rw [List.cons_append, List.dropWhile_cons]
    have hx : (x != c) = true := by
      have : x ≠ c := fun he => h (by rw [← he]; exact List.mem_cons_self x t)
      simpa using this
    simp only [hx, if_true]
    exact ih (fun hm => h (List.mem_cons_of_mem x hm))

theorem dropWhile_head_false (p : Char → Bool) (l : List Char) (hd : Char)
    (rest : List Char) (h : l.dropWhile p = hd :: rest) : p hd = false := by
  induction l with
  | nil => simp at h
  | cons x t ih =>
    rw [List.dropWhile_cons] at h
    by_cases hp : p x = true
    · rw [if_pos hp] at h
      exact ih h
    · rw [if_neg hp] at h
      injection h with h1 h2
      rw [Bool.not_eq_true] at hp
      rw [← h1]
      exact hp

theorem dropWhile_ne_suffix (c : Char) (a w : Str) :
    ∃ u, (a ++ c :: w).dropWhile (· != c) = c :: u ∧
      (w = u ∨ ∃ t, u = t ++ c :: w) := by
  induction a with
  | nil =>
    refine ⟨w, ?_, Or.inl rfl⟩
    simp only [List.nil_append]
    rw [List.dropWhile_cons]
    simp
  | cons x a' ih =>
    by_cases hx : x = c
    · refine ⟨a' ++ c :: w, ?_, Or.inr ⟨a', rfl⟩⟩
      rw [List.cons_append, List.dropWhile_cons]
      have hb : (x != c) = false := by simpa using hx
      simp only [hb, Bool.false_eq_true, if_false]
      rw [hx]
    · obtain ⟨u, hu, hcase⟩ := ih
      refine ⟨u, ?_, hcase⟩
      rw [List.cons_append, List.dropWhile_cons]
      have : (x != c) = true := by simpa using hx
      simp only [this, if_true]
      exact hu

theorem emailGroupLine_some_iff (line : Str) :
    (∃ g, emailGroupLine line = some g) ↔
      ∃ a b c, line = a ++ '<' :: (b ++ '>' :: c) := by
  constructor
  · rintro ⟨g, hg⟩
    rw [emailGroupLine] at hg
    split at hg
    · simp at hg
    next hd rest hdw =>
      split at hg
      next hmem =>
        have hhd : hd = '<' := by
          have := dropWhile_head_false (· != '<') line hd rest hdw
          simpa using this
        obtain ⟨b, c, rfl⟩ := List.append_of_mem hmem
        refine ⟨line.takeWhile (· != '<'), b, c, ?_⟩
        conv_lhs => rw [← List.takeWhile_append_dropWhile (· != '<') line]
        rw [hdw, hhd]
      · simp at hg
  · rintro ⟨a, b, c, rfl⟩
    obtain ⟨u, hu, hcase⟩ := dropWhile_ne_suffix '<' a (b ++ '>' :: c)
    have hmem : '>' ∈ u := by
      rcases hcase with rfl | ⟨t, rfl⟩
      · exact List.mem_append_right _ (List.mem_cons_self _ _)
      · refine List.mem_append_right _ (List.mem_cons_of_mem _ ?_)
        exact List.mem_append_right _ (List.mem_cons_self _ _)
    refine ⟨((u.reverse.dropWhile (· != '>')).drop 1).reverse, ?_⟩
    rw [emailGroupLine, hu]
    simp [hmem]

theorem nameGroupLine_no_lt (l : Str) (h : '<' ∉ l) : nameGroupLine l = none := by
  induction l with
  | nil => rfl
  | cons c rest ih =>
    rw [nameGroupLine, ih (fun hm => h (List.mem_cons_of_mem c hm))]
    apply if_neg
    rintro ⟨-, h2⟩
    cases rest with
    | nil => simp at h2
    | cons x t =>
      simp only [List.head?_cons, Option.some.injEq] at h2
      apply h
      rw [← h2]
      exact List.mem_cons_of_mem c (List.mem_cons_self x t)

theorem nameGroupLine_some_iff (line : Str) :
    (∃ g, nameGroupLine line = some g) ↔ ∃ a b, line = a ++ ' ' :: '<' :: b := by
  induction line with
  | nil =>
    constructor
    · rintro ⟨g, hg⟩
      simp [nameGroupLine] at hg
    · rintro ⟨a, b, h⟩
      cases a <;> simp at h
  | cons c rest ih =>
    constructor
    · rintro ⟨g, hg⟩
      rw [nameGroupLine] at hg
      cases hrec : nameGroupLine rest with
      | some g' =>
        obtain ⟨a, b, hab⟩ := ih.mp ⟨g', hrec⟩
        exact ⟨c :: a, b, by rw [hab]; rfl⟩
      | none =>
        rw [hrec] at hg
        by_cases hcond : c = ' ' ∧ rest.head? = some '<'
        · obtain ⟨rfl, hh⟩ := hcond
          obtain ⟨b, rfl⟩ : ∃ b, rest = '<' :: b := by
            cases rest with
            | nil => simp at hh
            | cons x rb =>
              simp only [List.head?_cons, Option.some.injEq] at hh
              exact ⟨rb, by rw [hh]⟩
          exact ⟨[], b, rfl⟩
        · rw [if_neg hcond] at hg
          simp at hg
    · rintro ⟨a, b, hab⟩
      cases a with
      | nil =>
        simp only [List.nil_append] at hab
        injection hab with h1 h2
        subst h1
        subst h2
        cases hrec : nameGroupLine ('<' :: b) with
        | some g' => exact ⟨' ' :: g', by rw [nameGroupLine, hrec]⟩
        | none =>
          refine ⟨[], ?_⟩
          rw [nameGroupLine, hrec]
          simp
      | cons z a' =>
        rw [List.cons_append] at hab
        injection hab with h1 h2
        subst h1
        obtain ⟨g', hg'⟩ := ih.mpr ⟨a', b, h2⟩
        exact ⟨c :: g', by rw [nameGroupLine, hg']⟩

theorem nameGroupLine_concrete (name tail : Str) (h2 : '<' ∉ name) (ht : '<' ∉ tail) :
    nameGroupLine (name ++ ' ' :: '<' :: tail) = some name := by
  induction name with
  | nil =>
    simp only [List.nil_append]
    rw [nameGroupLine]
    have hrec : nameGroupLine ('<' :: tail) = none := by
      rw [nameGroupLine, nameGroupLine_no_lt tail ht]
      apply if_neg
      rintro ⟨h1, -⟩
      exact absurd h1 (by decide)
    rw [hrec, if_pos ⟨rfl, rfl⟩]
  | cons ch name' ih =>
    have h2' : '<' ∉ name' := fun hm => h2 (List.mem_cons_of_mem ch hm)
    rw [List.cons_append, nameGroupLine, ih h2']

theorem emailGroupLine_concrete (name email : Str) (h2 : '<' ∉ name) :
    emailGroupLine (name ++ ' ' :: '<' :: (email ++ ['>'])) = some email := by
  have hdw : (name ++ ' ' :: '<' :: (email ++ ['>'])).dropWhile (· != '<') =
      '<' :: (email ++ ['>']) := by
    have hre : name ++ ' ' :: '<' :: (email ++ ['>']) =
        (name ++ [' ']) ++ '<' :: (email ++ ['>']) := by simp
    rw [hre]
    apply dropWhile_not_mem
    intro hm
    rcases List.mem_append.mp hm with hmm | hmm
    · exact h2 hmm
    · rw [List.mem_singleton] at hmm
      exact absurd hmm (by decide)
  have hmem : '>' ∈ email ++ ['>'] :=
    List.mem_append_right _ (List.mem_singleton.mpr rfl)
  rw [emailGroupLine, hdw]
  simp only [hmem, if_true]
  have hgroup : (((email ++ ['>']).reverse.dropWhile (· != '>')).drop 1).reverse = email := by
    rw [List.reverse_append]
    simp only [List.reverse_cons, List.reverse_nil, List.nil_append, List.singleton_append]
    rw [List.dropWhile_cons]
    simp
  rw [hgroup]

/-- C9: `extract_name_and_email` on a string of the form `'Name <email>'`
(name and email newline-free, neither containing a `<`) returns
`(Name, email)`; and on every input lacking a `<...>` pattern within a
line, or lacking a `' <'` separator (a name position) within a line, it
returns `None` — the embedded function is total, matching the Python code,
which performs no unpacking and cannot raise there. -/
theorem extract_name_and_email_spec :
    (∀ name email : Str, '\n' ∉ name → '<' ∉ name → '\n' ∉ email → '<' ∉ email →
      extract_name_and_email (name ++ ' ' :: '<' :: (email ++ ['>'])) =
        some (name, email)) ∧
    (∀ s : Str,
      ((¬∃ line ∈ pySplit '\n' s, ∃ a b c, line = a ++ '<' :: (b ++ '>' :: c)) ∨
       (¬∃ line ∈ pySplit '\n' s, ∃ a b, line = a ++ ' ' :: '<' :: b)) →
      extract_name_and_email s = none) := by
  constructor
  · intro name email h1 h2 h3 h4
    have hs_nl : '\n' ∉ name ++ ' ' :: '<' :: (email ++ ['>']) := by
      intro hm
      rcases List.mem_append.mp hm with hmm | hmm
      · exact h1 hmm
      rcases List.mem_cons.mp hmm with hmm | hmm
      · exact absurd hmm (by decide)
      rcases List.mem_cons.mp hmm with hmm | hmm
      · exact absurd hmm (by decide)
      rcases List.mem_append.mp hmm with hmm | hmm
      · exact h3 hmm
      · rw [List.mem_singleton] at hmm
        exact absurd hmm (by decide)
    have hsplit : pySplit '\n' (name ++ ' ' :: '<' :: (email ++ ['>'])) =
        [name ++ ' ' :: '<' :: (email ++ ['>'])] := pySplit_no_sep '\n' _ hs_nl
    have htail : '<' ∉ email ++ ['>'] := by
      intro hm
      rcases List.mem_append.mp hm with hmm | hmm
      · exact h4 hmm
      · rw [List.mem_singleton] at hmm
        exact absurd hmm (by decide)
    rw [extract_name_and_email, reSearchAngleGroup, reSearchNameGroup, hsplit,
      List.findSome?_cons, emailGroupLine_concrete name email h2,
      List.findSome?_cons, nameGroupLine_concrete name (email ++ ['>']) h2 htail]
  · intro s h
    rcases h with h | h
    · have hnone : reSearchAngleGroup s = none := by
        rw [reSearchAngleGroup, List.findSome?_eq_none_iff]
        intro line hline
        cases he : emailGroupLine line with
        | none => rfl
        | some g =>
          exfalso
          obtain ⟨a, b, c, hd⟩ := (emailGroupLine_some_iff line).mp ⟨g, he⟩
          exact h ⟨line, hline, a, b, c, hd⟩
      rw [extract_name_and_email, hnone]
    · have hnone : reSearchNameGroup s = none := by
        rw [reSearchNameGroup, List.findSome?_eq_none_iff]
        intro line hline
        cases he : nameGroupLine line with
        | none => rfl
        | some g =>
          exfalso
          obtain ⟨a, b, hd⟩ := (nameGroupLine_some_iff line).mp ⟨g, he⟩
          exact h ⟨line, hline, a, b, hd⟩
      rw [extract_name_and_email]
      cases hag : reSearchAngleGroup s with
      | none => rfl
      | some e => rw [hnone]

/-- C9 witness: both conjuncts applied at concrete strings. -/
theorem extract_name_and_email_spec_witness :
    extract_name_and_email
        (strL "Tinky Winky" ++ ' ' :: '<' :: (strL "tinky@winky.com" ++ ['>'])) =
      some (strL "Tinky Winky", strL "tinky@winky.com") ∧
    extract_name_and_email (strL "Foo") = none ∧
    extract_name_and_email (strL "<email>") = none :=
  ⟨extract_name_and_email_spec.1 (strL "Tinky Winky") (strL "tinky@winky.com")
      (by decide) (by decide) (by decide) (by decide),
   extract_name_and_email_spec.2 (strL "Foo") (Or.inl (by
     rintro ⟨line, hline, a, b, c, hd⟩
     rw [show pySplit '\n' (strL "Foo") = [strL "Foo"] from rfl, List.mem_singleton] at hline
     subst hline
     have hmem : '<' ∈ strL "Foo" := by
       rw [hd]
       exact List.mem_append_right _ (List.mem_cons_self _ _)
     exact absurd hmem (by decide))),
   extract_name_and_email_spec.2 (strL "<email>") (Or.inr (by
     rintro ⟨line, hline, a, b, hd⟩
     rw [show pySplit '\n' (strL "<email>") = [strL "<email>"] from rfl,
       List.mem_singleton] at hline
     subst hline
     have hmem : ' ' ∈ strL "<email>" := by
       rw [hd]
       exact List.mem_append_right _ (List.mem_cons_self _ _)
     exact absurd hmem (by decide)))⟩

/-- C10 witness: the specification applied at concrete strings. -/
theorem is_valid_email_spec_witness :
    is_valid_email (strL "a" ++ '@' :: (strL "b" ++ '.' :: strL "c")) = true ∧
    is_valid_email (strL "winky.com") = false ∧
    is_valid_email (strL "user@host") = false ∧
    is_valid_email (strL "a" ++ '@' :: '.' :: strL "c") = false ∧
    is_valid_email (strL "a" ++ '@' :: (strL "b" ++ ['.'])) = false :=
  ⟨is_valid_email_spec.1 (strL "a") (strL "b") (strL "c") (by decide) (by decide)
      (by decide) (by decide) (by decide) (by decide),
   is_valid_email_spec.2.1 (strL "winky.com") (by decide),
   is_valid_email_spec.2.2.1 (strL "user@host") (by decide),
   is_valid_email_spec.2.2.2.2.1 (strL "a") (strL "c") (by decide) (by decide) (by decide),
   is_valid_email_spec.2.2.2.2.2 (strL "a") (strL "b") (by decide) (by decide) (by decide)
     (by decide)⟩

end DcoCheck
